import Mathlib

/-!
Shallow embedding of the basis-point helpers of the autoware trajectory
library (src/common/autoware_trajectory/src/detail/util.cpp) together with
models, taken from the specification, of the trajectory-level operations
whose implementation is exercised only through the test file.  Doubles are
embedded as rational numbers (exact arithmetic).
-/

/-- Conversion of a non-negative machine integer to `int16_t` in
two's complement, as performed by `static_cast<int16_t>` in `fill_bases`. -/
def toInt16 (n : ℕ) : ℤ :=
  (((n + 2 ^ 15) % 2 ^ 16 : ℕ) : ℤ) - 2 ^ 15

/-- The points the inner loop of `fill_bases` pushes for one gap `[a, b]`
that receives `k` interior points: the C++ computes
`step = (b - a) / static_cast<int16_t>(k + 1)` and pushes
`a + static_cast<int16_t>(j + 1) * step` for `j = 0 .. k-1`. -/
def gap_points (a b : ℚ) (k : ℕ) : List ℚ :=
  (List.range k).map fun j =>
    a + (toInt16 (j + 1) : ℚ) * ((b - a) / (toInt16 (k + 1) : ℚ))

/-- The interior points of one gap as the spec describes them: `k` points at
equal sub-intervals between the two endpoints, in exact arithmetic. -/
def ideal_gap_points (a b : ℚ) (k : ℕ) : List ℚ :=
  (List.range k).map fun (j : ℕ) =>
    a + ((j : ℚ) + 1) * ((b - a) / ((k : ℚ) + 1))

/-- The per-gap insertion counts computed by `fill_bases`:
`std::vector<size_t> points_per_gap(num_gaps, points_to_add / num_gaps)`
followed by `std::fill_n(begin, points_to_add % num_gaps, points_per_gap[0] + 1)`. -/
def points_per_gap (pta ng : ℕ) : List ℕ :=
  List.replicate (pta % ng) (pta / ng + 1) ++ List.replicate (ng - pta % ng) (pta / ng)

/-- The main loop of `fill_bases`, parameterised by the per-gap point
generator: for every consecutive pair push the left endpoint and then the
gap points, and finally push the last original point. -/
def assemble (gp : ℚ → ℚ → ℕ → List ℚ) : List ℚ → List ℕ → List ℚ
  | [], _ => []
  | [a], _ => [a]
  | a :: b :: rest, ks => a :: (gp a b ks.headI ++ assemble gp (b :: rest) ks.tail)

/-- `num_gaps` as the C++ computes it: `original_size - 1` on `size_t`,
which wraps modulo `2 ^ 64` when the input is empty. -/
def num_gaps_szt (n : ℕ) : ℕ :=
  (n + 2 ^ 64 - 1) % 2 ^ 64

/-- Embedding of `fill_bases` (util.cpp lines 24-56).  If the input already
has at least `min_points` elements it is returned unchanged.  Otherwise the
code computes `points_to_add / num_gaps`: for a one-element input
`num_gaps = 0` and the division by zero is undefined behaviour, and for an
empty input `num_gaps` wraps to `2 ^ 64 - 1`, the vector constructor
attempts an allocation of that size and the main loop reads out of bounds;
both undefined paths are embedded as `none`. -/
def fill_bases (x : List ℚ) (min_points : ℕ) : Option (List ℚ) :=
  if min_points ≤ x.length then some x
  else if x.length ≤ 1 then none
  else some (assemble gap_points x (points_per_gap (min_points - x.length) (x.length - 1)))

/-- The densification described by the spec, in exact arithmetic: distribute
`min_points - len` new points over the gaps, the first `remainder` gaps
getting one extra point, each gap subdivided at equal sub-intervals. -/
def spec_densify (x : List ℚ) (min_points : ℕ) : List ℚ :=
  assemble ideal_gap_points x (points_per_gap (min_points - x.length) (x.length - 1))

/-- Embedding of `crop_bases` (util.cpp lines 58-78): push `start` if it is
nowhere in `x`, copy every element of `x` inside `[start, stop]`, and push
`stop` if it is nowhere in `x`. -/
def crop_bases (x : List ℚ) (start stop : ℚ) : List ℚ :=
  (if start ∈ x then [] else [start]) ++
    (x.filter fun i => decide (start ≤ i) && decide (i ≤ stop)) ++
    (if stop ∈ x then [] else [stop])

/-- An input point of the trajectory builder: planar coordinates plus a
lane id, mirroring `PathPointWithLaneId` as used in the tests. -/
structure PathPoint where
  px : ℚ
  py : ℚ
  lane_id : ℕ
deriving DecidableEq

/-- Modelled from the spec: `Builder.build` (the Trajectory builder is not
under src, only its tests are) fails, returning no curve, when fewer than
2 points are supplied, and otherwise performs all-or-nothing construction
of the curve from the validated point sequence. -/
def Builder.build (points : List PathPoint) : Option (List PathPoint) :=
  if 2 ≤ points.length then some points else none

/-- Modelled from the spec: whole-field assignment `field = v` sets every
sample of the field.  A field is the list of (arc-length sample, value)
pairs of one scalar overlay. -/
def set_all (f : List (ℚ × ℚ)) (v : ℚ) : List (ℚ × ℚ) :=
  f.map fun p => (p.1, v)

/-- Modelled from the spec: `field.range(a, b).set(v)` writes `v` exactly to
the samples whose arc-length lies in `[a, b]` and leaves the others. -/
def range_set (f : List (ℚ × ℚ)) (a b v : ℚ) : List (ℚ × ℚ) :=
  f.map fun p => if a ≤ p.1 ∧ p.1 ≤ b then (p.1, v) else p

/-- The stored value of a field at a basis sample `s` (any interpolation of
the spec is exact at its sample points, so querying at a sample returns the
stored value). -/
def value_at (f : List (ℚ × ℚ)) (s : ℚ) : Option ℚ :=
  (f.find? fun p => decide (p.1 = s)).map Prod.snd

/-- Piecewise-linear interpolation over (basis, value) pairs; it is exact at
the sample points, the only property the claims rely on, and stands in for
the interpolators of the spec. -/
def interp : List (ℚ × ℚ) → ℚ → ℚ
  | [], _ => 0
  | [(_, y0)], _ => y0
  | (x0, y0) :: (x1, y1) :: rest, s =>
    if s ≤ x0 then y0
    else if s ≤ x1 then y0 + (s - x0) * ((y1 - y0) / (x1 - x0))
    else interp ((x1, y1) :: rest) s

/-- A curve: an arc-length basis and the samples of one of its fields (a
coordinate or a scalar overlay; each field of the spec shares the basis, so
one generic field captures all of them). -/
structure Curve where
  bases : List ℚ
  values : List ℚ

/-- The curve length: the last basis value. -/
def Curve.length (c : Curve) : ℚ :=
  c.bases.getLastD 0

/-- Field value at arc-length `s`. -/
def Curve.compute (c : Curve) (s : ℚ) : ℚ :=
  interp (c.bases.zip c.values) s

/-- Modelled from the spec: `crop(start, length)` (the Trajectory member is
not under src, only its tests are) restricts the basis to
`[start, start + length]` with exact boundary insertion via `crop_bases`,
re-bases arc-length by `-start`, samples every field at the restricted
basis, and fails fast on an out-of-range request. -/
def Curve.crop (c : Curve) (start len : ℚ) : Option Curve :=
  if 0 ≤ start ∧ 0 < len ∧ start + len ≤ c.length then
    some { bases := (crop_bases c.bases start (start + len)).map fun t => t - start,
           values := (crop_bases c.bases start (start + len)).map fun t => c.compute t }
  else none

/-- Modelled from the spec: `find_intervals` walks the per-sample predicate
values and groups maximal runs of `true` samples; the accumulator holds the
interval opened by the current run. -/
def group_intervals : Option (ℚ × ℚ) → List (ℚ × Bool) → List (ℚ × ℚ)
  | none, [] => []
  | some iv, [] => [iv]
  | none, (s, true) :: rest => group_intervals (some (s, s)) rest
  | none, (_, false) :: rest => group_intervals none rest
  | some iv, (s, true) :: rest => group_intervals (some (iv.1, s)) rest
  | some iv, (_, false) :: rest => iv :: group_intervals none rest

/-- Modelled from the spec: `find_intervals` (not under src, only its tests
are) evaluates the predicate at each basis sample and returns the maximal
contiguous arc-length intervals on which it holds. -/
def find_intervals (bases : List ℚ) (flags : List Bool) : List (ℚ × ℚ) :=
  group_intervals none (bases.zip flags)

/-- C2: for an input with fewer than 2 elements and a larger `min_points`
the code does not fail gracefully: with a one-element input it reaches
`points_to_add / num_gaps` with `num_gaps = 0`, a division by zero.  The
embedding marks that undefined path with `none`. -/
theorem fill_bases_single_point_division_by_zero :
    num_gaps_szt 1 = 0 ∧ fill_bases [(0 : ℚ)] 2 = none := by
  constructor
  · decide
  · rfl

/-- Values up to `2 ^ 15 - 1` pass through the `int16_t` cast unchanged. -/
theorem toInt16_of_le (n : ℕ) (h : n ≤ 32767) : toInt16 n = n := by
  unfold toInt16
  rw [Nat.mod_eq_of_lt (by omega)]
  push_cast
  omega

/-- When the insertion count of a gap stays below the `int16_t` range, the
gap points of the code coincide with the ideal equally spaced points. -/
theorem gap_points_eq_ideal (a b : ℚ) (k : ℕ) (hk : k ≤ 32766) :
    gap_points a b k = ideal_gap_points a b k := by
  unfold gap_points ideal_gap_points
  refine List.map_congr_left ?_
  intro j hj
  rw [List.mem_range] at hj
  have h1 : toInt16 (j + 1) = (j : ℤ) + 1 := by
    rw [toInt16_of_le (j + 1) (by omega)]; push_cast; ring
  have h2 : toInt16 (k + 1) = (k : ℤ) + 1 := by
    rw [toInt16_of_le (k + 1) (by omega)]; push_cast; ring
  rw [h1, h2]
  push_cast
  ring

theorem points_per_gap_length (pta ng : ℕ) (h : 1 ≤ ng) :
    (points_per_gap pta ng).length = ng := by
  have := Nat.mod_lt pta (show 0 < ng by omega)
  simp only [points_per_gap, List.length_append, List.length_replicate]
  omega

theorem points_per_gap_sum (pta ng : ℕ) (h : 1 ≤ ng) :
    (points_per_gap pta ng).sum = pta := by
  have hlt := Nat.mod_lt pta (show 0 < ng by omega)
  have hdm := Nat.div_add_mod pta ng
  simp only [points_per_gap, List.sum_append, List.sum_replicate, smul_eq_mul]
  have h1 : (pta % ng) * (pta / ng + 1) = (pta % ng) * (pta / ng) + pta % ng := by ring
  have h2 : (ng - pta % ng) * (pta / ng) = ng * (pta / ng) - (pta % ng) * (pta / ng) :=
    Nat.sub_mul _ _ _
  have h3 : (pta % ng) * (pta / ng) ≤ ng * (pta / ng) :=
    Nat.mul_le_mul_right _ hlt.le
  omega

theorem points_per_gap_mem_le (pta ng : ℕ) (h1 : 1 ≤ ng) (h2 : pta ≤ 32766 * ng) :
    ∀ k ∈ points_per_gap pta ng, k ≤ 32766 := by
  intro k hk
  have hdm := Nat.div_add_mod pta ng
  have hql : pta / ng * ng ≤ pta := Nat.div_mul_le_self pta ng
  simp only [points_per_gap, List.mem_append, List.mem_replicate] at hk
  rcases hk with ⟨hr, rfl⟩ | ⟨-, rfl⟩
  · -- a remainder gap: the count is q + 1 and the remainder is positive
    by_contra hq
    have : 32766 * ng ≤ pta / ng * ng := Nat.mul_le_mul_right ng (by omega)
    have hmod : 0 < pta % ng := Nat.pos_of_ne_zero fun h0 => hr (by omega)
    have hc : ng * (pta / ng) = pta / ng * ng := Nat.mul_comm _ _
    omega
  · by_contra hq
    have : 32767 * ng ≤ pta / ng * ng := Nat.mul_le_mul_right ng (by omega)
    have hc : ng * (pta / ng) = pta / ng * ng := Nat.mul_comm _ _
    omega

theorem assemble_length (gp : ℚ → ℚ → ℕ → List ℚ)
    (hgp : ∀ a b k, (gp a b k).length = k) :
    ∀ (x : List ℚ) (ks : List ℕ), ks.length = x.length - 1 →
      (assemble gp x ks).length = x.length + ks.sum := by
  intro x
  induction x with
  | nil =>
    intro ks hks
    have : ks = [] := List.eq_nil_of_length_eq_zero (by simpa using hks)
    subst this
    simp [assemble]
  | cons a t ih =>
    intro ks hks
    cases t with
    | nil =>
      have : ks = [] := List.eq_nil_of_length_eq_zero (by simpa using hks)
      subst this
      simp [assemble]
    | cons b rest =>
      cases ks with
      | nil => simp at hks
      | cons k ks2 =>
        have hlen : ks2.length = (b :: rest).length - 1 := by
          simp at hks ⊢
          omega
        simp only [assemble, List.headI, List.tail, List.length_cons, List.length_append,
          List.sum_cons, hgp, ih ks2 hlen]
        omega

theorem assemble_head? (gp : ℚ → ℚ → ℕ → List ℚ) :
    ∀ (x : List ℚ) (ks : List ℕ), (assemble gp x ks).head? = x.head? := by
  intro x ks
  match x with
  | [] => rfl
  | [a] => rfl
  | a :: b :: rest => rfl

theorem assemble_getLast? (gp : ℚ → ℚ → ℕ → List ℚ) :
    ∀ (x : List ℚ) (ks : List ℕ), (assemble gp x ks).getLast? = x.getLast? := by
  intro x
  induction x with
  | nil => intro ks; rfl
  | cons a t ih =>
    intro ks
    cases t with
    | nil => rfl
    | cons b rest =>
      have htail := ih ks.tail
      obtain ⟨p, hp⟩ := Option.isSome_iff_exists.mp
        (List.getLast?_isSome.mpr (List.cons_ne_nil b rest))
      calc (assemble gp (a :: b :: rest) ks).getLast?
          = (([a] ++ gp a b ks.headI) ++ assemble gp (b :: rest) ks.tail).getLast? := by
            simp [assemble, List.append_assoc]
        _ = ((assemble gp (b :: rest) ks.tail).getLast?).or
              (([a] ++ gp a b ks.headI).getLast?) := List.getLast?_append
        _ = ((b :: rest).getLast?).or (([a] ++ gp a b ks.headI).getLast?) := by rw [htail]
        _ = (b :: rest).getLast? := by rw [hp]; rfl
        _ = (a :: b :: rest).getLast? := (List.getLast?_cons_cons).symm

theorem assemble_mem (gp : ℚ → ℚ → ℕ → List ℚ) :
    ∀ (x : List ℚ) (ks : List ℕ) (a : ℚ), a ∈ x → a ∈ assemble gp x ks := by
  intro x
  induction x with
  | nil => intro ks a ha; cases ha
  | cons c t ih =>
    intro ks a ha
    cases t with
    | nil => simpa [assemble] using ha
    | cons b rest =>
      rcases List.mem_cons.mp ha with rfl | hat
      · simp [assemble]
      · simp only [assemble, List.mem_cons, List.mem_append]
        exact Or.inr (Or.inr (ih ks.tail a hat))

theorem assemble_congr (gp1 gp2 : ℚ → ℚ → ℕ → List ℚ) :
    ∀ (x : List ℚ) (ks : List ℕ), ks.length = x.length - 1 →
      (∀ a b k, k ∈ ks → gp1 a b k = gp2 a b k) →
      assemble gp1 x ks = assemble gp2 x ks := by
  intro x
  induction x with
  | nil => intro ks _ _; rfl
  | cons a t ih =>
    intro ks hlen hk
    cases t with
    | nil => rfl
    | cons b rest =>
      cases ks with
      | nil => simp at hlen
      | cons k ks2 =>
        simp only [assemble, List.headI, List.tail]
        rw [hk a b k (List.mem_cons_self _ _),
          ih ks2 (by simp at hlen ⊢; omega)
            (fun a2 b2 k2 h2 => hk a2 b2 k2 (List.mem_cons_of_mem _ h2))]

/-- The left endpoint, the ideal gap points and the right endpoint together
form the image of an arithmetic progression. -/
theorem ideal_cons_append (a b : ℚ) (k : ℕ) :
    a :: (ideal_gap_points a b k ++ [b])
      = (List.range (k + 2)).map fun (j : ℕ) => a + (j : ℚ) * ((b - a) / ((k : ℚ) + 1)) := by
  have hk1 : ((k : ℚ) + 1) ≠ 0 := by positivity
  rw [show k + 2 = (k + 1) + 1 from rfl, List.range_succ, List.map_append,
    List.range_succ_eq_map, List.map_cons, List.map_map]
  simp only [List.cons_append]
  congr 1
  · simp
  congr 1
  · unfold ideal_gap_points
    refine List.map_congr_left ?_
    intro j hj
    simp only [Function.comp_apply, Nat.succ_eq_add_one]
    push_cast
    ring
  · have hcan : ((k : ℚ) + 1) * ((b - a) / ((k : ℚ) + 1)) = b - a := by
      rw [mul_comm, div_mul_cancel₀ _ hk1]
    simp only [List.map_cons, List.map_nil, List.cons.injEq, and_true]
    push_cast
    rw [hcan]
    ring

/-- For an in-range insertion count the gap points are strictly increasing,
strictly between the two endpoints of the gap. -/
theorem gap_points_chain (a b : ℚ) (k : ℕ) (hk : k ≤ 32766) (hab : a < b) :
    List.Chain' (· < ·) (a :: (gap_points a b k ++ [b])) := by
  rw [gap_points_eq_ideal a b k hk, ideal_cons_append]
  rw [List.chain'_map]
  rw [show k + 2 = (k + 1) + 1 from rfl, List.chain'_range_succ]
  intro m _
  have hd : (0 : ℚ) < (b - a) / ((k : ℚ) + 1) :=
    div_pos (sub_pos.mpr hab) (by positivity)
  have hm : (m : ℚ) < (m : ℚ) + 1 := by linarith
  have := mul_lt_mul_of_pos_right hm hd
  push_cast
  linarith

theorem assemble_chain :
    ∀ (x : List ℚ) (ks : List ℕ), ks.length = x.length - 1 →
      (∀ k ∈ ks, k ≤ 32766) → List.Chain' (· < ·) x →
      List.Chain' (· < ·) (assemble gap_points x ks) := by
  intro x
  induction x with
  | nil => intro ks _ _ _; simp [assemble]
  | cons a t ih =>
    intro ks hlen hks hx
    cases t with
    | nil => simp [assemble]
    | cons b rest =>
      cases ks with
      | nil => simp at hlen
      | cons k ks2 =>
        have hab : a < b := (List.chain'_cons.mp hx).1
        have htail : List.Chain' (· < ·) (b :: rest) := (List.chain'_cons.mp hx).2
        have hg := gap_points_chain a b k (hks k (List.mem_cons_self _ _)) hab
        have hg' : List.Chain' (· < ·) ((a :: gap_points a b k) ++ [b]) := by
          rw [List.cons_append]; exact hg
        have hg2 := List.chain'_append.mp hg'
        have hA := ih ks2 (by simp at hlen ⊢; omega)
          (fun k2 h2 => hks k2 (List.mem_cons_of_mem _ h2)) htail
        have hAhead := assemble_head? gap_points (b :: rest) ks2
        have hshape : assemble gap_points (a :: b :: rest) (k :: ks2)
            = (a :: gap_points a b k) ++ assemble gap_points (b :: rest) ks2 := by
          simp [assemble]
        rw [hshape, List.chain'_append]
        refine ⟨hg2.1, hA, ?_⟩
        intro lst hlst y hy
        rw [hAhead] at hy
        simp only [List.head?_cons, Option.mem_def, Option.some.injEq] at hy
        exact hy ▸ hg2.2.2 lst hlst b (by simp)

/-- C1 (corrected, counterexample part): the claim fails for unbounded
`min_count`.  At `x = [0, 1]` and `min_count = 32770` the single gap
receives 32768 points, `static_cast<int16_t>(32768 + 1)` is `-32767`, the
step is negative, and the first inserted point lies below 0: the output is
not strictly increasing. -/
theorem fill_bases_nonmonotone_cx :
    ∃ res, fill_bases [(0 : ℚ), 1] 32770 = some res ∧ ¬ List.Pairwise (· < ·) res := by
  have hppg : points_per_gap (32770 - 2) (2 - 1) = [32768] := by decide
  refine ⟨assemble gap_points [0, 1] (points_per_gap (32770 - 2) (2 - 1)), by norm_num [fill_bases], ?_⟩
  intro hp
  rw [hppg] at hp
  have hshape : assemble gap_points [(0 : ℚ), 1] [32768]
      = 0 :: (gap_points 0 1 32768 ++ [1]) := rfl
  rw [hshape] at hp
  have hmem : (0 : ℚ) + (toInt16 (0 + 1) : ℚ) * ((1 - 0) / (toInt16 (32768 + 1) : ℚ))
      ∈ gap_points 0 1 32768 := by
    unfold gap_points
    exact List.mem_map.mpr ⟨0, List.mem_range.mpr (by norm_num), rfl⟩
  have h0 := (List.pairwise_cons.mp hp).1 _ (List.mem_append_left _ hmem)
  rw [show toInt16 (0 + 1) = 1 by decide, show toInt16 (32768 + 1) = -32767 by decide] at h0
  norm_num at h0

/-- C1 (amended): for every strictly increasing input with at least 2
elements and every `min_count` that keeps each per-gap insertion count
within `int16_t` (`min_count ≤ len + 32766 * (len - 1)`), `fill_bases`
returns a sequence of length `max len min_count` that contains every
original point, preserves both endpoint values exactly, and is strictly
increasing. -/
theorem fill_bases_dense_bounded (x : List ℚ) (min_points : ℕ)
    (hx : List.Pairwise (· < ·) x) (hlen : 2 ≤ x.length)
    (hbound : min_points ≤ x.length + 32766 * (x.length - 1)) :
    ∃ res, fill_bases x min_points = some res ∧
      res.length = max x.length min_points ∧
      (∀ a ∈ x, a ∈ res) ∧
      res.head? = x.head? ∧
      res.getLast? = x.getLast? ∧
      List.Pairwise (· < ·) res := by
  by_cases hmp : min_points ≤ x.length
  · refine ⟨x, by simp [fill_bases, hmp], by omega, fun a ha => ha, rfl, rfl, hx⟩
  · have h2 : ¬ x.length ≤ 1 := by omega
    have hng : 1 ≤ x.length - 1 := by omega
    have hpta : min_points - x.length ≤ 32766 * (x.length - 1) := by omega
    have hkle := points_per_gap_mem_le (min_points - x.length) (x.length - 1) hng hpta
    have hkslen : (points_per_gap (min_points - x.length) (x.length - 1)).length
        = x.length - 1 := points_per_gap_length _ _ hng
    refine ⟨assemble gap_points x (points_per_gap (min_points - x.length) (x.length - 1)),
      by simp [fill_bases, hmp, h2], ?_, ?_, ?_, ?_, ?_⟩
    · rw [assemble_length gap_points (fun a b k => by simp [gap_points]) x _ hkslen,
        points_per_gap_sum _ _ hng]
      omega
    · exact fun a ha => assemble_mem gap_points x _ a ha
    · exact assemble_head? gap_points x _
    · exact assemble_getLast? gap_points x _
    · exact List.chain'_iff_pairwise.mp
        (assemble_chain x _ hkslen hkle (List.chain'_iff_pairwise.mpr hx))

theorem fill_bases_dense_bounded_witness :
    List.Pairwise (· < ·) [(0 : ℚ), 1, 3] ∧
    2 ≤ ([(0 : ℚ), 1, 3] : List ℚ).length ∧
    7 ≤ ([(0 : ℚ), 1, 3] : List ℚ).length + 32766 * (([(0 : ℚ), 1, 3] : List ℚ).length - 1) ∧
    (∃ res, fill_bases [(0 : ℚ), 1, 3] 7 = some res ∧
      res.length = max ([(0 : ℚ), 1, 3] : List ℚ).length 7 ∧
      (∀ a ∈ ([(0 : ℚ), 1, 3] : List ℚ), a ∈ res) ∧
      res.head? = ([(0 : ℚ), 1, 3] : List ℚ).head? ∧
      res.getLast? = ([(0 : ℚ), 1, 3] : List ℚ).getLast? ∧
      List.Pairwise (· < ·) res) :=
  ⟨by decide, by decide, by decide,
    fill_bases_dense_bounded [0, 1, 3] 7 (by decide) (by decide) (by decide)⟩

/-- C5 (corrected, counterexample part): at `x = [0, 1]` and
`min_count = 32770` the inserted points do not sit at equal sub-intervals:
the `int16_t` cast of the insertion count makes the first inserted point
negative instead of `1/32769`. -/
theorem fill_bases_uneven_cx :
    fill_bases [(0 : ℚ), 1] 32770 ≠ some (spec_densify [(0 : ℚ), 1] 32770) := by
  intro h
  have hppg : points_per_gap (32770 - 2) (2 - 1) = [32768] := by decide
  have h1 : assemble gap_points [(0 : ℚ), 1] (points_per_gap (32770 - 2) (2 - 1))
      = assemble ideal_gap_points [(0 : ℚ), 1] (points_per_gap (32770 - 2) (2 - 1)) := by
    have h0 : fill_bases [(0 : ℚ), 1] 32770
        = some (assemble gap_points [(0 : ℚ), 1] (points_per_gap (32770 - 2) (2 - 1))) := by
      norm_num [fill_bases]
    have h0r : spec_densify [(0 : ℚ), 1] 32770
        = assemble ideal_gap_points [(0 : ℚ), 1] (points_per_gap (32770 - 2) (2 - 1)) := by
      norm_num [spec_densify]
    rw [h0, h0r] at h
    exact Option.some.inj h
  rw [hppg] at h1
  have hL : (assemble gap_points [(0 : ℚ), 1] [32768]).get? 1
      = some ((0 : ℚ) + (toInt16 (0 + 1) : ℚ) * ((1 - 0) / (toInt16 (32768 + 1) : ℚ))) := by
    show ((0 : ℚ) :: (gap_points 0 1 32768 ++ [1])).get? 1 = _
    rw [List.get?_cons_succ, List.get?_append (by simp [gap_points]), gap_points,
      List.get?_map, List.get?_range (by norm_num)]
    rfl
  have hR : (assemble ideal_gap_points [(0 : ℚ), 1] [32768]).get? 1
      = some ((0 : ℚ) + (((0 : ℕ) : ℚ) + 1) * ((1 - 0) / (((32768 : ℕ) : ℚ) + 1))) := by
    show ((0 : ℚ) :: (ideal_gap_points 0 1 32768 ++ [1])).get? 1 = _
    rw [List.get?_cons_succ, List.get?_append (by simp [ideal_gap_points]), ideal_gap_points,
      List.get?_map, List.get?_range (by norm_num)]
    rfl
  have h2 := congrArg (fun l => l.get? 1) h1
  simp only [hL, hR, Option.some.injEq] at h2
  rw [show toInt16 (0 + 1) = 1 by decide, show toInt16 (32768 + 1) = -32767 by decide] at h2
  norm_num at h2

/-- C5 (amended): for every strictly increasing input with at least 2
elements, `len < min_count`, and `min_count` small enough that each per-gap
count fits in `int16_t`, `fill_bases` equals the even distribution the spec
describes: the counts differ by at most one across gaps, the first
`remainder` gaps carry the extra point, their total is `min_count - len`,
and each gap is subdivided at equal sub-intervals in exact arithmetic. -/
theorem fill_bases_even_distribution (x : List ℚ) (min_points : ℕ)
    (hx : List.Pairwise (· < ·) x) (hlen : 2 ≤ x.length) (hlt : x.length < min_points)
    (hbound : min_points ≤ x.length + 32766 * (x.length - 1)) :
    fill_bases x min_points = some (spec_densify x min_points) ∧
    (points_per_gap (min_points - x.length) (x.length - 1)).length = x.length - 1 ∧
    (points_per_gap (min_points - x.length) (x.length - 1)).sum = min_points - x.length ∧
    (∀ k ∈ points_per_gap (min_points - x.length) (x.length - 1),
      (min_points - x.length) / (x.length - 1) ≤ k ∧
        k ≤ (min_points - x.length) / (x.length - 1) + 1) ∧
    (∀ i, i < (min_points - x.length) % (x.length - 1) →
      (points_per_gap (min_points - x.length) (x.length - 1)).get? i
        = some ((min_points - x.length) / (x.length - 1) + 1)) := by
  have hmp : ¬ min_points ≤ x.length := by omega
  have h2 : ¬ x.length ≤ 1 := by omega
  have hng : 1 ≤ x.length - 1 := by omega
  have hpta : min_points - x.length ≤ 32766 * (x.length - 1) := by omega
  have hkle := points_per_gap_mem_le (min_points - x.length) (x.length - 1) hng hpta
  have hkslen : (points_per_gap (min_points - x.length) (x.length - 1)).length
      = x.length - 1 := points_per_gap_length _ _ hng
  refine ⟨?_, hkslen, points_per_gap_sum _ _ hng, ?_, ?_⟩
  · simp only [fill_bases, spec_densify, hmp, h2, if_false, Option.some.injEq]
    exact assemble_congr gap_points ideal_gap_points x _ hkslen
      (fun a b k hk => gap_points_eq_ideal a b k (hkle k hk))
  · intro k hk
    simp only [points_per_gap, List.mem_append, List.mem_replicate] at hk
    rcases hk with ⟨-, rfl⟩ | ⟨-, rfl⟩ <;> omega
  · intro i hi
    have hilen : i < (List.replicate ((min_points - x.length) % (x.length - 1))
        ((min_points - x.length) / (x.length - 1) + 1)).length := by
      simpa using hi
    rw [points_per_gap, List.get?_append hilen, List.get?_eq_getElem?]
    simp [List.getElem?_replicate, hi]

theorem fill_bases_even_distribution_witness :
    List.Pairwise (· < ·) [(0 : ℚ), 1, 3] ∧
    2 ≤ ([(0 : ℚ), 1, 3] : List ℚ).length ∧
    ([(0 : ℚ), 1, 3] : List ℚ).length < 8 ∧
    8 ≤ ([(0 : ℚ), 1, 3] : List ℚ).length + 32766 * (([(0 : ℚ), 1, 3] : List ℚ).length - 1) ∧
    (fill_bases [(0 : ℚ), 1, 3] 8 = some (spec_densify [(0 : ℚ), 1, 3] 8) ∧
      (points_per_gap (8 - ([(0 : ℚ), 1, 3] : List ℚ).length)
        (([(0 : ℚ), 1, 3] : List ℚ).length - 1)).length
          = ([(0 : ℚ), 1, 3] : List ℚ).length - 1 ∧
      (points_per_gap (8 - ([(0 : ℚ), 1, 3] : List ℚ).length)
        (([(0 : ℚ), 1, 3] : List ℚ).length - 1)).sum
          = 8 - ([(0 : ℚ), 1, 3] : List ℚ).length ∧
      (∀ k ∈ points_per_gap (8 - ([(0 : ℚ), 1, 3] : List ℚ).length)
          (([(0 : ℚ), 1, 3] : List ℚ).length - 1),
        (8 - ([(0 : ℚ), 1, 3] : List ℚ).length) / (([(0 : ℚ), 1, 3] : List ℚ).length - 1) ≤ k ∧
          k ≤ (8 - ([(0 : ℚ), 1, 3] : List ℚ).length) /
            (([(0 : ℚ), 1, 3] : List ℚ).length - 1) + 1) ∧
      (∀ i, i < (8 - ([(0 : ℚ), 1, 3] : List ℚ).length) % (([(0 : ℚ), 1, 3] : List ℚ).length - 1) →
        (points_per_gap (8 - ([(0 : ℚ), 1, 3] : List ℚ).length)
          (([(0 : ℚ), 1, 3] : List ℚ).length - 1)).get? i
            = some ((8 - ([(0 : ℚ), 1, 3] : List ℚ).length) /
              (([(0 : ℚ), 1, 3] : List ℚ).length - 1) + 1))) :=
  ⟨by decide, by decide, by decide, by decide,
    fill_bases_even_distribution [0, 1, 3] 8 (by decide) (by decide) (by decide) (by decide)⟩

/-- C9 (corrected, counterexample part): the per-gap insertion count does
not always fit in `int16_t`.  At `x = [0, 1]` and `min_count = 32770` the
single gap receives 32768 points; the cast of `32768 + 1` yields `-32767`,
and the first inserted point is `-1/32767` instead of the exact-arithmetic
value `1/32769`, so the claimed insertion formula fails. -/
theorem int16_cast_overflow_cx :
    points_per_gap (32770 - 2) (2 - 1) = [32768] ∧
    toInt16 (32768 + 1) = -32767 ∧ ((-32767 : ℤ) ≠ ((32768 : ℤ) + 1)) ∧
    (gap_points 0 1 32768).get? 0 = some (-(1 / 32767 : ℚ)) ∧
    ((0 : ℚ) + ((0 : ℚ) + 1) * ((1 - 0) / ((32768 : ℚ) + 1)) ≠ -(1 / 32767 : ℚ)) := by
  refine ⟨by decide, by decide, by decide, ?_, by norm_num⟩
  rw [gap_points, List.get?_map, List.get?_range (by norm_num)]
  simp only [Option.map_some']
  rw [show toInt16 (0 + 1) = 1 by decide, show toInt16 (32768 + 1) = -32767 by decide]
  norm_num

/-- C9 (amended): whenever `min_count - len ≤ 32766 * (len - 1)`, every
per-gap insertion count and every inner loop index pass through the
`int16_t` casts unchanged, and the gap points of the code equal the
exact-arithmetic insertion formula points. -/
theorem int16_cast_identity_bounded (pta ng : ℕ) (h1 : 1 ≤ ng) (h2 : pta ≤ 32766 * ng) :
    ∀ k ∈ points_per_gap pta ng,
      toInt16 (k + 1) = (k : ℤ) + 1 ∧
      (∀ j, j < k → toInt16 (j + 1) = (j : ℤ) + 1) ∧
      ∀ a b : ℚ, gap_points a b k = ideal_gap_points a b k := by
  intro k hk
  have hle := points_per_gap_mem_le pta ng h1 h2 k hk
  refine ⟨?_, ?_, fun a b => gap_points_eq_ideal a b k hle⟩
  · rw [toInt16_of_le _ (by omega)]; push_cast; ring
  · intro j hj
    rw [toInt16_of_le _ (by omega)]; push_cast; ring

theorem int16_cast_identity_bounded_witness :
    1 ≤ 2 ∧ 5 ≤ 32766 * 2 ∧
    (∀ k ∈ points_per_gap 5 2,
      toInt16 (k + 1) = (k : ℤ) + 1 ∧
      (∀ j, j < k → toInt16 (j + 1) = (j : ℤ) + 1) ∧
      ∀ a b : ℚ, gap_points a b k = ideal_gap_points a b k) :=
  ⟨by decide, by decide, int16_cast_identity_bounded 5 2 (by decide) (by decide)⟩

/-- In a strictly sorted list, a member below every element is the head. -/
theorem head?_of_sorted_min {l : List ℚ} {a : ℚ} (hs : List.Pairwise (· < ·) l)
    (ha : a ∈ l) (hmin : ∀ b ∈ l, a ≤ b) : l.head? = some a := by
  cases l with
  | nil => cases ha
  | cons h t =>
    rcases List.mem_cons.mp ha with rfl | hat
    · rfl
    · exact absurd ((List.pairwise_cons.mp hs).1 a hat)
        (not_lt.mpr (hmin h (List.mem_cons_self h t)))

/-- In a strictly sorted list, a member above every element is the last. -/
theorem getLast?_of_sorted_max {l : List ℚ} {a : ℚ} (hs : List.Pairwise (· < ·) l)
    (ha : a ∈ l) (hmax : ∀ b ∈ l, b ≤ a) : l.getLast? = some a := by
  induction l with
  | nil => cases ha
  | cons h t ih =>
    cases t with
    | nil =>
      rcases List.mem_cons.mp ha with rfl | hat
      · rfl
      · cases hat
    | cons h2 t2 =>
      rw [List.getLast?_cons_cons]
      rcases List.mem_cons.mp ha with rfl | hat
      · exact absurd ((List.pairwise_cons.mp hs).1 h2 (List.mem_cons_self h2 t2))
          (not_lt.mpr (hmax h2 (List.mem_cons_of_mem _ (List.mem_cons_self h2 t2))))
      · exact ih (List.pairwise_cons.mp hs).2 hat
          (fun b hb => hmax b (List.mem_cons_of_mem _ hb))

/-- Characterisation of membership in the filtered middle of `crop_bases`. -/
theorem mem_crop_filter {x : List ℚ} {start stop a : ℚ} :
    a ∈ x.filter (fun i => decide (start ≤ i) && decide (i ≤ stop)) ↔
      a ∈ x ∧ start ≤ a ∧ a ≤ stop := by
  simp [List.mem_filter]

/-- Main properties of `crop_bases` on sorted input (shared helper). -/
theorem crop_bases_props (x : List ℚ) (start stop : ℚ)
    (hx : List.Pairwise (· < ·) x) (hss : start < stop) :
    (crop_bases x start stop).head? = some start ∧
    (crop_bases x start stop).getLast? = some stop ∧
    List.Pairwise (· < ·) (crop_bases x start stop) ∧
    (∀ a ∈ x, start ≤ a → a ≤ stop → a ∈ crop_bases x start stop) ∧
    (crop_bases x start stop).Nodup := by
  have hPF : List.Pairwise (· < ·) (x.filter fun i => decide (start ≤ i) && decide (i ≤ stop)) :=
    List.Pairwise.sublist (List.filter_sublist x) hx
  have hFx : ∀ b ∈ x.filter (fun i => decide (start ≤ i) && decide (i ≤ stop)),
      b ∈ x ∧ start ≤ b ∧ b ≤ stop := fun b hb => mem_crop_filter.mp hb
  by_cases hsx : start ∈ x <;> by_cases hex : stop ∈ x
  · -- both boundaries already present: the result is the filtered list
    have hshape : crop_bases x start stop
        = x.filter (fun i => decide (start ≤ i) && decide (i ≤ stop)) := by
      simp [crop_bases, hsx, hex]
    have hsF : start ∈ x.filter (fun i => decide (start ≤ i) && decide (i ≤ stop)) :=
      mem_crop_filter.mpr ⟨hsx, le_refl start, le_of_lt hss⟩
    have heF : stop ∈ x.filter (fun i => decide (start ≤ i) && decide (i ≤ stop)) :=
      mem_crop_filter.mpr ⟨hex, le_of_lt hss, le_refl stop⟩
    rw [hshape]
    exact ⟨head?_of_sorted_min hPF hsF (fun b hb => (hFx b hb).2.1),
      getLast?_of_sorted_max hPF heF (fun b hb => (hFx b hb).2.2),
      hPF,
      fun a ha h1 h2 => mem_crop_filter.mpr ⟨ha, h1, h2⟩,
      hPF.imp ne_of_lt⟩
  · -- start present, stop absent: filtered list with stop appended
    have hshape : crop_bases x start stop
        = x.filter (fun i => decide (start ≤ i) && decide (i ≤ stop)) ++ [stop] := by
      simp [crop_bases, hsx, hex]
    have hsF : start ∈ x.filter (fun i => decide (start ≤ i) && decide (i ≤ stop)) :=
      mem_crop_filter.mpr ⟨hsx, le_refl start, le_of_lt hss⟩
    have hcross : ∀ b ∈ x.filter (fun i => decide (start ≤ i) && decide (i ≤ stop)), b < stop :=
      fun b hb => lt_of_le_of_ne (hFx b hb).2.2 (fun hbe => hex (hbe ▸ (hFx b hb).1))
    have hP : List.Pairwise (· < ·)
        (x.filter (fun i => decide (start ≤ i) && decide (i ≤ stop)) ++ [stop]) := by
      rw [List.pairwise_append]
      exact ⟨hPF, List.pairwise_singleton _ _,
        fun a ha b hb => by simp at hb; exact hb ▸ hcross a ha⟩
    rw [hshape]
    refine ⟨?_, ?_, hP, ?_, hP.imp ne_of_lt⟩
    · rw [List.head?_append,
        head?_of_sorted_min hPF hsF (fun b hb => (hFx b hb).2.1)]
      simp [Option.or]
    · rw [List.getLast?_append]
      simp [Option.or]
    · exact fun a ha h1 h2 => List.mem_append_left _ (mem_crop_filter.mpr ⟨ha, h1, h2⟩)
  · -- start absent, stop present: start consed onto the filtered list
    have hshape : crop_bases x start stop
        = start :: x.filter (fun i => decide (start ≤ i) && decide (i ≤ stop)) := by
      simp [crop_bases, hsx, hex]
    have heF : stop ∈ x.filter (fun i => decide (start ≤ i) && decide (i ≤ stop)) :=
      mem_crop_filter.mpr ⟨hex, le_of_lt hss, le_refl stop⟩
    have hcross : ∀ b ∈ x.filter (fun i => decide (start ≤ i) && decide (i ≤ stop)), start < b :=
      fun b hb => lt_of_le_of_ne (hFx b hb).2.1 (fun hbe => hsx (hbe ▸ (hFx b hb).1))
    have hP : List.Pairwise (· < ·)
        (start :: x.filter (fun i => decide (start ≤ i) && decide (i ≤ stop))) :=
      List.pairwise_cons.mpr ⟨hcross, hPF⟩
    rw [hshape]
    refine ⟨rfl, ?_, hP, ?_, hP.imp ne_of_lt⟩
    · show ([start] ++ x.filter (fun i => decide (start ≤ i) && decide (i ≤ stop))).getLast?
          = some stop
      rw [List.getLast?_append,
        getLast?_of_sorted_max hPF heF (fun b hb => (hFx b hb).2.2)]
      simp [Option.or]
    · exact fun a ha h1 h2 => List.mem_cons_of_mem _ (mem_crop_filter.mpr ⟨ha, h1, h2⟩)
  · -- both boundaries absent: start consed, stop appended
    have hshape : crop_bases x start stop
        = start :: (x.filter (fun i => decide (start ≤ i) && decide (i ≤ stop)) ++ [stop]) := by
      simp [crop_bases, hsx, hex]
    have hcross1 : ∀ b ∈ x.filter (fun i => decide (start ≤ i) && decide (i ≤ stop)), start < b :=
      fun b hb => lt_of_le_of_ne (hFx b hb).2.1 (fun hbe => hsx (hbe ▸ (hFx b hb).1))
    have hcross2 : ∀ b ∈ x.filter (fun i => decide (start ≤ i) && decide (i ≤ stop)), b < stop :=
      fun b hb => lt_of_le_of_ne (hFx b hb).2.2 (fun hbe => hex (hbe ▸ (hFx b hb).1))
    have hPapp : List.Pairwise (· < ·)
        (x.filter (fun i => decide (start ≤ i) && decide (i ≤ stop)) ++ [stop]) := by
      rw [List.pairwise_append]
      exact ⟨hPF, List.pairwise_singleton _ _,
        fun a ha b hb => by simp at hb; exact hb ▸ hcross2 a ha⟩
    have hP : List.Pairwise (· < ·)
        (start :: (x.filter (fun i => decide (start ≤ i) && decide (i ≤ stop)) ++ [stop])) := by
      refine List.pairwise_cons.mpr ⟨?_, hPapp⟩
      intro b hb
      rcases List.mem_append.mp hb with hbF | hbe
      · exact hcross1 b hbF
      · simp at hbe; exact hbe ▸ hss
    rw [hshape]
    refine ⟨rfl, ?_, hP, ?_, hP.imp ne_of_lt⟩
    · show ([start] ++ (x.filter (fun i => decide (start ≤ i) && decide (i ≤ stop)) ++ [stop])).getLast?
          = some stop
      rw [List.getLast?_append, List.getLast?_append]
      simp [Option.or]
    · exact fun a ha h1 h2 =>
        List.mem_cons_of_mem _ (List.mem_append_left _ (mem_crop_filter.mpr ⟨ha, h1, h2⟩))

/-- C3: for every strictly increasing input and `start < stop`,
`crop_bases` returns the in-range subsequence with the two boundary values
inserted exactly when absent: the output starts with `start`, ends with
`stop`, is strictly increasing, contains every input element of
`[start, stop]`, and has no duplicates. -/
theorem crop_bases_sorted_bounds (x : List ℚ) (start stop : ℚ)
    (hx : List.Pairwise (· < ·) x) (hss : start < stop) :
    (crop_bases x start stop).head? = some start ∧
    (crop_bases x start stop).getLast? = some stop ∧
    List.Pairwise (· < ·) (crop_bases x start stop) ∧
    (∀ a ∈ x, start ≤ a → a ≤ stop → a ∈ crop_bases x start stop) ∧
    (crop_bases x start stop).Nodup :=
  crop_bases_props x start stop hx hss

theorem crop_bases_sorted_bounds_witness :
    List.Pairwise (· < ·) [(1 : ℚ), 2, 3] ∧ (0 : ℚ) < 2 ∧
    ((crop_bases [(1 : ℚ), 2, 3] 0 2).head? = some 0 ∧
      (crop_bases [(1 : ℚ), 2, 3] 0 2).getLast? = some 2 ∧
      List.Pairwise (· < ·) (crop_bases [(1 : ℚ), 2, 3] 0 2) ∧
      (∀ a ∈ ([(1 : ℚ), 2, 3] : List ℚ), 0 ≤ a → a ≤ 2 → a ∈ crop_bases [(1 : ℚ), 2, 3] 0 2) ∧
      (crop_bases [(1 : ℚ), 2, 3] 0 2).Nodup) :=
  ⟨by decide, by decide, crop_bases_sorted_bounds [1, 2, 3] 0 2 (by decide) (by decide)⟩

/-- C10: for any input (sorted or not) and `start ≤ stop`, `crop_bases`
never returns an empty list, and when no input element lies in
`[start, stop]` it returns exactly `[start, stop]`. -/
theorem crop_bases_nonempty_default (x : List ℚ) (start stop : ℚ) (hss : start ≤ stop) :
    crop_bases x start stop ≠ [] ∧
    ((∀ a ∈ x, ¬(start ≤ a ∧ a ≤ stop)) → crop_bases x start stop = [start, stop]) := by
  constructor
  · have hmem : start ∈ crop_bases x start stop := by
      by_cases hsx : start ∈ x
      · exact List.mem_append_left _ (List.mem_append_right _
          (mem_crop_filter.mpr ⟨hsx, le_refl start, hss⟩))
      · simp [crop_bases, hsx]
    exact List.ne_nil_of_mem hmem
  · intro hall
    have hsx : start ∉ x := fun h => hall start h ⟨le_refl start, hss⟩
    have hex : stop ∉ x := fun h => hall stop h ⟨hss, le_refl stop⟩
    have hF : x.filter (fun i => decide (start ≤ i) && decide (i ≤ stop)) = [] := by
      rw [List.filter_eq_nil_iff]
      intro a ha
      simpa using fun h1 h2 => hall a ha ⟨h1, h2⟩
    simp [crop_bases, hsx, hex, hF]

theorem crop_bases_nonempty_default_witness :
    (1 : ℚ) ≤ 2 ∧
    (crop_bases [(5 : ℚ), 9] 1 2 ≠ [] ∧
      ((∀ a ∈ ([(5 : ℚ), 9] : List ℚ), ¬((1 : ℚ) ≤ a ∧ a ≤ 2)) →
        crop_bases [(5 : ℚ), 9] 1 2 = [1, 2])) :=
  ⟨by decide, crop_bases_nonempty_default [5, 9] 1 2 (by decide)⟩

/-- C4: the builder succeeds exactly when at least two points are supplied;
in particular the 4-point test path from (0, 0) to (3.3, 4.01) builds, the
1-point path fails, and nothing is returned in the failure case. -/
theorem builder_build_iff_two_points :
    (∀ P : List PathPoint, (Builder.build P).isSome = true ↔ 2 ≤ P.length) ∧
    (Builder.build [⟨0, 0, 0⟩, ⟨81/100, 168/100, 0⟩, ⟨165/100, 298/100, 0⟩,
      ⟨33/10, 401/100, 1⟩]).isSome = true ∧
    Builder.build [⟨0, 0, 0⟩] = none := by
  refine ⟨?_, ?_, ?_⟩
  · intro P
    unfold Builder.build
    split <;> simp_all
  · rfl
  · rfl

theorem value_at_cons (p : ℚ × ℚ) (t : List (ℚ × ℚ)) (s : ℚ) :
    value_at (p :: t) s = if p.1 = s then some p.2 else value_at t s := by
  by_cases hp : p.1 = s
  · simp [value_at, List.find?_cons_of_pos, hp]
  · simp [value_at, List.find?_cons_of_neg, hp]

/-- Whole-field assignment makes every sample read back the written value. -/
theorem value_at_set_all (f : List (ℚ × ℚ)) (v s : ℚ) (hs : s ∈ f.map Prod.fst) :
    value_at (set_all f v) s = some v := by
  induction f with
  | nil => simp at hs
  | cons p t ih =>
    show value_at ((p.1, v) :: set_all t v) s = some v
    rw [value_at_cons]
    by_cases hp : p.1 = s
    · simp [hp]
    · simp only [List.map_cons, List.mem_cons] at hs
      rcases hs with h | h
      · exact absurd h.symm hp
      · simp [hp, ih h]

/-- Samples outside the written range read back exactly as before. -/
theorem value_at_range_set_out (f : List (ℚ × ℚ)) (a b v s : ℚ)
    (hout : ¬(a ≤ s ∧ s ≤ b)) :
    value_at (range_set f a b v) s = value_at f s := by
  induction f with
  | nil => rfl
  | cons p t ih =>
    have hfst : (if a ≤ p.1 ∧ p.1 ≤ b then (p.1, v) else p).1 = p.1 := by split <;> rfl
    show value_at ((if a ≤ p.1 ∧ p.1 ≤ b then (p.1, v) else p) :: range_set t a b v) s = _
    rw [value_at_cons, value_at_cons, hfst]
    by_cases hp : p.1 = s
    · subst hp
      simp [hout]
    · simp [hp, ih]

/-- Samples inside the written range read back the written value. -/
theorem value_at_range_set_in (f : List (ℚ × ℚ)) (a b v s : ℚ)
    (hin : a ≤ s ∧ s ≤ b) (hs : s ∈ f.map Prod.fst) :
    value_at (range_set f a b v) s = some v := by
  induction f with
  | nil => simp at hs
  | cons p t ih =>
    have hfst : (if a ≤ p.1 ∧ p.1 ≤ b then (p.1, v) else p).1 = p.1 := by split <;> rfl
    show value_at ((if a ≤ p.1 ∧ p.1 ≤ b then (p.1, v) else p) :: range_set t a b v) s = _
    rw [value_at_cons, hfst]
    by_cases hp : p.1 = s
    · subst hp
      simp [hin]
    · simp only [List.map_cons, List.mem_cons] at hs
      rcases hs with h | h
      · exact absurd h.symm hp
      · simp [hp, ih h]

/-- C6: a sub-range write changes exactly the samples whose arc-length lies
in `[a, b]` and leaves every other sample untouched, and concretely, after
`field = 10` followed by `range(L/3, 2L/3).set(5)`, the field reads 10 at
arc-length 0, 5 at `L/2` and 10 at `L`. -/
theorem range_set_overlay (f : List (ℚ × ℚ)) (L : ℚ) (hL : 0 < L)
    (h0 : (0 : ℚ) ∈ f.map Prod.fst) (hmid : L / 2 ∈ f.map Prod.fst)
    (hend : L ∈ f.map Prod.fst) :
    (∀ (g : List (ℚ × ℚ)) (a b v s : ℚ), ¬(a ≤ s ∧ s ≤ b) →
      value_at (range_set g a b v) s = value_at g s) ∧
    (∀ (g : List (ℚ × ℚ)) (a b v s : ℚ), a ≤ s → s ≤ b → s ∈ g.map Prod.fst →
      value_at (range_set g a b v) s = some v) ∧
    value_at (range_set (set_all f 10) (L / 3) (2 * L / 3) 5) 0 = some 10 ∧
    value_at (range_set (set_all f 10) (L / 3) (2 * L / 3) 5) (L / 2) = some 5 ∧
    value_at (range_set (set_all f 10) (L / 3) (2 * L / 3) 5) L = some 10 := by
  have hfst_all : (set_all f 10).map Prod.fst = f.map Prod.fst := by
    simp [set_all]
  refine ⟨fun g a b v s h => value_at_range_set_out g a b v s h,
    fun g a b v s h1 h2 h3 => value_at_range_set_in g a b v s ⟨h1, h2⟩ h3, ?_, ?_, ?_⟩
  · rw [value_at_range_set_out _ _ _ _ _ (fun h => by linarith [h.1])]
    exact value_at_set_all f 10 0 h0
  · exact value_at_range_set_in _ _ _ _ _ ⟨by linarith, by linarith⟩
      (by rw [hfst_all]; exact hmid)
  · rw [value_at_range_set_out _ _ _ _ _ (fun h => by linarith [h.2])]
    exact value_at_set_all f 10 L hend

theorem range_set_overlay_witness :
    (0 : ℚ) < 6 ∧
    (0 : ℚ) ∈ ([((0 : ℚ), 1), (1, 2), (3, 7), (4, 9), (6, 11)] : List (ℚ × ℚ)).map Prod.fst ∧
    (6 : ℚ) / 2 ∈ ([((0 : ℚ), 1), (1, 2), (3, 7), (4, 9), (6, 11)] : List (ℚ × ℚ)).map Prod.fst ∧
    (6 : ℚ) ∈ ([((0 : ℚ), 1), (1, 2), (3, 7), (4, 9), (6, 11)] : List (ℚ × ℚ)).map Prod.fst ∧
    ((∀ (g : List (ℚ × ℚ)) (a b v s : ℚ), ¬(a ≤ s ∧ s ≤ b) →
      value_at (range_set g a b v) s = value_at g s) ∧
    (∀ (g : List (ℚ × ℚ)) (a b v s : ℚ), a ≤ s → s ≤ b → s ∈ g.map Prod.fst →
      value_at (range_set g a b v) s = some v) ∧
    value_at (range_set (set_all [((0 : ℚ), 1), (1, 2), (3, 7), (4, 9), (6, 11)] 10)
      ((6 : ℚ) / 3) (2 * 6 / 3) 5) 0 = some 10 ∧
    value_at (range_set (set_all [((0 : ℚ), 1), (1, 2), (3, 7), (4, 9), (6, 11)] 10)
      ((6 : ℚ) / 3) (2 * 6 / 3) 5) ((6 : ℚ) / 2) = some 5 ∧
    value_at (range_set (set_all [((0 : ℚ), 1), (1, 2), (3, 7), (4, 9), (6, 11)] 10)
      ((6 : ℚ) / 3) (2 * 6 / 3) 5) 6 = some 10) :=
  ⟨by norm_num, by norm_num, by norm_num, by norm_num,
    range_set_overlay [((0 : ℚ), 1), (1, 2), (3, 7), (4, 9), (6, 11)] 6
      (by norm_num) (by norm_num) (by norm_num) (by norm_num)⟩

/-- Interpolation at or before the first sample returns the first value. -/
theorem interp_head (p : ℚ × ℚ) (l : List (ℚ × ℚ)) (s : ℚ) (hs : s ≤ p.1) :
    interp (p :: l) s = p.2 := by
  obtain ⟨x0, y0⟩ := p
  cases l with
  | nil => rfl
  | cons q t =>
    obtain ⟨x1, y1⟩ := q
    simp only [interp]
    rw [if_pos hs]

theorem mem_of_getLast?_eq {l : List (ℚ × ℚ)} {p : ℚ × ℚ}
    (h : l.getLast? = some p) : p ∈ l := by
  obtain ⟨hne, hp⟩ := List.mem_getLast?_eq_getLast
    (show p ∈ l.getLast? by simp [Option.mem_def, h])
  rw [hp]
  exact List.getLast_mem hne

/-- Interpolation at the last sample returns the last value. -/
theorem interp_getLast (l : List (ℚ × ℚ)) (p : ℚ × ℚ)
    (hsort : List.Pairwise (· < ·) (l.map Prod.fst)) (hlast : l.getLast? = some p) :
    interp l p.1 = p.2 := by
  induction l with
  | nil => simp at hlast
  | cons q t ih =>
    cases t with
    | nil =>
      have hp : q = p := by simpa using hlast
      subst hp
      obtain ⟨x0, y0⟩ := q
      rfl
    | cons r t2 =>
      rw [List.getLast?_cons_cons] at hlast
      have hpmem : p ∈ r :: t2 := mem_of_getLast?_eq hlast
      simp only [List.map_cons, List.pairwise_cons] at hsort
      have hq : q.1 < p.1 := hsort.1 p.1 (by
        simp only [List.mem_cons, List.mem_map]
        rcases List.mem_cons.mp hpmem with rfl | hp2
        · exact Or.inl rfl
        · exact Or.inr ⟨p, hp2, rfl⟩)
      obtain ⟨x0, y0⟩ := q
      obtain ⟨x1, y1⟩ := r
      simp only [interp]
      rw [if_neg (not_le.mpr hq)]
      by_cases h1 : p.1 ≤ x1
      · cases t2 with
        | nil =>
          have hp : (x1, y1) = p := by simpa using hlast
          have hx1p : p.1 = x1 := by rw [← hp]
          have hlt : x0 < x1 := by rw [← hx1p]; exact hq
          have hx01 : x1 - x0 ≠ 0 := sub_ne_zero.mpr (ne_of_gt hlt)
          rw [if_pos h1, ← hp]
          show y0 + (x1 - x0) * ((y1 - y0) / (x1 - x0)) = y1
          field_simp
        | cons w t3 =>
          exfalso
          rw [List.getLast?_cons_cons] at hlast
          have hpmem2 : p ∈ w :: t3 := mem_of_getLast?_eq hlast
          have : x1 < p.1 := hsort.2.1 p.1 (List.mem_map.mpr ⟨p, hpmem2, rfl⟩)
          exact absurd h1 (not_le.mpr this)
      · rw [if_neg h1]
        refine ih ?_ hlast
        simp only [List.map_cons, List.pairwise_cons]
        exact hsort.2

/-- C7: for every valid `crop(s, L)` request (`0 ≤ s`, `0 < L`,
`s + L` within the current length), the cropped curve has length exactly
`L`, and its field values (positions as well as per-point fields) computed
at the new arc-lengths 0 and `L` equal the values computed at `s` and
`s + L` before the crop. -/
theorem crop_length_endpoints (c : Curve) (s L : ℚ)
    (hsort : List.Pairwise (· < ·) c.bases) (hs : 0 ≤ s) (hL : 0 < L)
    (hend : s + L ≤ c.length) :
    ∃ c2, c.crop s L = some c2 ∧ c2.length = L ∧
      c2.compute 0 = c.compute s ∧ c2.compute L = c.compute (s + L) := by
  have hss : s < s + L := by linarith
  obtain ⟨hhead, hlast, hPairs, -, -⟩ := crop_bases_props c.bases s (s + L) hsort hss
  have hcond : 0 ≤ s ∧ 0 < L ∧ s + L ≤ c.length := ⟨hs, hL, hend⟩
  refine ⟨{ bases := (crop_bases c.bases s (s + L)).map fun t => t - s,
            values := (crop_bases c.bases s (s + L)).map fun t => c.compute t },
    ?_, ?_, ?_, ?_⟩
  · simp only [Curve.crop, if_pos hcond]
  · show ((crop_bases c.bases s (s + L)).map fun t => t - s).getLastD 0 = L
    rw [List.getLastD_eq_getLast?, List.getLast?_map, hlast]
    show s + L - s = L
    ring
  · show interp ((((crop_bases c.bases s (s + L)).map fun t => t - s)).zip
      ((crop_bases c.bases s (s + L)).map fun t => c.compute t)) 0 = c.compute s
    rw [List.zip_map']
    obtain ⟨tl, htl⟩ : ∃ tl, crop_bases c.bases s (s + L) = s :: tl := by
      cases hnb : crop_bases c.bases s (s + L) with
      | nil => rw [hnb] at hhead; simp at hhead
      | cons a tl =>
        rw [hnb] at hhead
        simp at hhead
        exact ⟨tl, by rw [hhead]⟩
    rw [htl, List.map_cons]
    rw [interp_head _ _ _ (by simp)]
  · show interp ((((crop_bases c.bases s (s + L)).map fun t => t - s)).zip
      ((crop_bases c.bases s (s + L)).map fun t => c.compute t)) L = c.compute (s + L)
    rw [List.zip_map']
    have hlast2 : ((crop_bases c.bases s (s + L)).map
        fun t => (t - s, c.compute t)).getLast? = some (s + L - s, c.compute (s + L)) := by
      rw [List.getLast?_map, hlast]
      rfl
    have hsort2 : List.Pairwise (· < ·)
        (((crop_bases c.bases s (s + L)).map fun t => (t - s, c.compute t)).map Prod.fst) := by
      rw [List.map_map]
      exact List.Pairwise.map _ (fun a b hab => by simpa using sub_lt_sub_right hab s) hPairs
    have hres := interp_getLast _ _ hsort2 hlast2
    rw [show (s + L - s : ℚ) = L by ring] at hres
    exact hres

theorem crop_length_endpoints_witness :
    List.Pairwise (· < ·) (Curve.mk [0, 1, 2, 3] [5, 6, 7, 8]).bases ∧
    (0 : ℚ) ≤ 1 ∧ (0 : ℚ) < 1 ∧
    (1 : ℚ) + 1 ≤ (Curve.mk [0, 1, 2, 3] [5, 6, 7, 8]).length ∧
    (∃ c2, (Curve.mk [0, 1, 2, 3] [5, 6, 7, 8]).crop 1 1 = some c2 ∧
      c2.length = 1 ∧
      c2.compute 0 = (Curve.mk [0, 1, 2, 3] [5, 6, 7, 8]).compute 1 ∧
      c2.compute 1 = (Curve.mk [0, 1, 2, 3] [5, 6, 7, 8]).compute (1 + 1)) :=
  ⟨by decide, by decide, by decide, by norm_num [Curve.length, List.getLastD],
    crop_length_endpoints (Curve.mk [0, 1, 2, 3] [5, 6, 7, 8]) 1 1
      (by decide) (by decide) (by decide) (by norm_num [Curve.length, List.getLastD])⟩

/-- C8: on a 10-sample curve whose predicate holds exactly on the back half
of the samples, `find_intervals` merges the adjacent true samples into
exactly one interval `[b5, b9]`, with `0 < b5 < b9` and `b9` equal to the
curve length (the last basis value). -/
theorem find_intervals_back_half (b0 b1 b2 b3 b4 b5 b6 b7 b8 b9 : ℚ)
    (hsort : List.Pairwise (· < ·) [b0, b1, b2, b3, b4, b5, b6, b7, b8, b9])
    (hzero : b0 = 0) :
    find_intervals [b0, b1, b2, b3, b4, b5, b6, b7, b8, b9]
      [false, false, false, false, false, true, true, true, true, true] = [(b5, b9)] ∧
    0 < b5 ∧ b5 < b9 ∧
    ([b0, b1, b2, b3, b4, b5, b6, b7, b8, b9] : List ℚ).getLastD 0 = b9 := by
  simp only [List.pairwise_cons] at hsort
  refine ⟨rfl, ?_, ?_, rfl⟩
  · have h05 : b0 < b5 := hsort.1 b5 (by simp)
    rw [hzero] at h05
    exact h05
  · exact hsort.2.2.2.2.2.1 b9 (by simp)

theorem find_intervals_back_half_witness :
    List.Pairwise (· < ·) [(0 : ℚ), 1, 2, 3, 4, 5, 6, 7, 8, 9] ∧ (0 : ℚ) = 0 ∧
    (find_intervals [(0 : ℚ), 1, 2, 3, 4, 5, 6, 7, 8, 9]
      [false, false, false, false, false, true, true, true, true, true] = [(5, 9)] ∧
    (0 : ℚ) < 5 ∧ (5 : ℚ) < 9 ∧
    ([(0 : ℚ), 1, 2, 3, 4, 5, 6, 7, 8, 9] : List ℚ).getLastD 0 = 9) :=
  ⟨by decide, rfl,
    find_intervals_back_half 0 1 2 3 4 5 6 7 8 9 (by decide) rfl⟩
